import Mathlib

/-!
Verification of the terminal-extensions hook pipeline.

The development shallowly embeds `terminal_extensions/cli.py`:

* `HookRegistry` with `register_interceptor`, `register_callback`,
  `get_interceptors`, `get_callbacks`, `clear`;
* the interceptor / callback loops of `process_command`, instrumented with an
  event trace recording which hook ran, with which argument, which diagnostics
  were emitted, and how the executor was invoked;
* `execute_command`, parameterised by a spawn oracle `sys : String → SpawnOutcome`
  standing for the operating system (`subprocess.run` either yields an exit code
  with captured output, or raises, which the code converts to `(1, None, msg)`);
* `load_hooks_from_directory`, where a directory is `Option (List HookFile)`
  (`none` = the path does not exist) and a `HookFile` abstracts a Python file:
  whether `importlib` produces a loadable spec, the registry actions its
  top-level code performs, and whether it raises after performing them.
-/

/-- Result of calling a Python interceptor, `Union[bool, str]` in
`type_alias.py`; `otherRes` stands for any value that is neither a `bool` nor a
`str` (e.g. `None`), and `raises` for the interceptor raising an exception with
the given message. -/
inductive InterceptorResult where
  | boolRes : Bool → InterceptorResult
  | strRes : String → InterceptorResult
  | otherRes : InterceptorResult
  | raises : String → InterceptorResult
deriving DecidableEq

/-- `InterceptorFunc = Callable[[CommandStr], Union[bool, CommandStr]]`. -/
def InterceptorFunc : Type := String → InterceptorResult

/-- Result of calling a Python callback: it either returns (`ok`, return value
ignored) or raises an exception with the given message. -/
inductive CallbackOutcome where
  | ok : CallbackOutcome
  | raises : String → CallbackOutcome
deriving DecidableEq

/-- `CallbackFunc = Callable[[CommandStr, int, Optional[str], Optional[str]], None]`. -/
def CallbackFunc : Type := String → Int → Option String → Option String → CallbackOutcome

/-- `HookRegistry`: two ordered lists of `(prefix, hook)` pairs
(`self._interceptors`, `self._callbacks`). -/
structure HookRegistry where
  interceptors : List (Option String × InterceptorFunc)
  callbacks : List (Option String × CallbackFunc)

/-- `HookRegistry.__init__`: both lists start empty. -/
def HookRegistry.empty : HookRegistry := ⟨[], []⟩

/-- `register_interceptor`: appends `(prefix, func)` to the interceptor list and
returns the original function. State-passing rendering of the Python method:
the first component is the updated registry, the second the returned function. -/
def HookRegistry.register_interceptor (r : HookRegistry) (func : InterceptorFunc)
    (pfx : Option String) : HookRegistry × InterceptorFunc :=
  ({ r with interceptors := r.interceptors ++ [(pfx, func)] }, func)

/-- `register_callback`: appends `(prefix, func)` to the callback list and
returns the original function. -/
def HookRegistry.register_callback (r : HookRegistry) (func : CallbackFunc)
    (pfx : Option String) : HookRegistry × CallbackFunc :=
  ({ r with callbacks := r.callbacks ++ [(pfx, func)] }, func)

/-- `get_interceptors`: returns a copy of the interceptor list (in the pure
embedding the copy is the list itself). -/
def HookRegistry.get_interceptors (r : HookRegistry) :
    List (Option String × InterceptorFunc) := r.interceptors

/-- `get_callbacks`: returns a copy of the callback list. -/
def HookRegistry.get_callbacks (r : HookRegistry) :
    List (Option String × CallbackFunc) := r.callbacks

/-- `clear`: empties both lists. -/
def HookRegistry.clear (_ : HookRegistry) : HookRegistry := ⟨[], []⟩

/-- Python `s.startswith(p)` on sequences of characters: `p` is an initial
segment of `s`. -/
def startsWithPy : List Char → List Char → Bool
  | [], _ => true
  | _ :: _, [] => false
  | p :: ps, c :: cs => p == c && startsWithPy ps cs

/-- The guard `prefix is None or command.startswith(prefix)` used in
`process_command` for both hook kinds. -/
def appliesTo (pfx : Option String) (command : String) : Bool :=
  match pfx with
  | none => true
  | some p => startsWithPy p.data command.data

/-- Observable events of one `process_command` run: hook invocations (with the
index of the hook in its registry list and the arguments it received), the
diagnostic lines printed to stderr when a hook raises, and the executor call. -/
inductive Event where
  | interceptorCall : Nat → String → Event
  | interceptorErr : Nat → String → Event
  | execCall : String → Bool → Event
  | callbackCall : Nat → String → Int → Option String → Option String → Event
  | callbackErr : Nat → String → Event
deriving DecidableEq

/-- The interceptor loop of `process_command` (cli.py lines 253-266).
Arguments: remaining hooks, index of the first of them in the full list, the
original `command` (prefix matching always tests it), `modified_command`, and
`should_execute`. Returns the final `modified_command`, the final
`should_execute`, and the trace. A `bool` result is assigned to
`should_execute` and `False` breaks the loop; a `str` result replaces the
current command; any other result changes nothing; an exception is caught,
logged, and the loop continues. -/
def interceptorLoop : List (Option String × InterceptorFunc) → Nat → String → String → Bool →
    String × Bool × List Event
  | [], _, _, cur, should_execute => (cur, should_execute, [])
  | (pfx, func) :: rest, idx, command, cur, should_execute =>
    if appliesTo pfx command then
      match func cur with
      | InterceptorResult.boolRes b =>
        if b then
          let r := interceptorLoop rest (idx + 1) command cur true
          (r.1, r.2.1, Event.interceptorCall idx cur :: r.2.2)
        else (cur, false, [Event.interceptorCall idx cur])
      | InterceptorResult.strRes s =>
        let r := interceptorLoop rest (idx + 1) command s should_execute
        (r.1, r.2.1, Event.interceptorCall idx cur :: r.2.2)
      | InterceptorResult.otherRes =>
        let r := interceptorLoop rest (idx + 1) command cur should_execute
        (r.1, r.2.1, Event.interceptorCall idx cur :: r.2.2)
      | InterceptorResult.raises msg =>
        let r := interceptorLoop rest (idx + 1) command cur should_execute
        (r.1, r.2.1, Event.interceptorCall idx cur :: Event.interceptorErr idx msg :: r.2.2)
    else interceptorLoop rest (idx + 1) command cur should_execute

/-- The callback loop of `process_command` (cli.py lines 273-278). Every
applicable callback is invoked with the ORIGINAL command and the execution
result; an exception is caught, logged, and the loop continues. -/
def callbackLoop : List (Option String × CallbackFunc) → Nat → String → Int →
    Option String → Option String → List Event
  | [], _, _, _, _, _ => []
  | (pfx, func) :: rest, idx, command, return_code, out, er =>
    if appliesTo pfx command then
      match func command return_code out er with
      | CallbackOutcome.ok =>
        Event.callbackCall idx command return_code out er ::
          callbackLoop rest (idx + 1) command return_code out er
      | CallbackOutcome.raises msg =>
        Event.callbackCall idx command return_code out er :: Event.callbackErr idx msg ::
          callbackLoop rest (idx + 1) command return_code out er
    else callbackLoop rest (idx + 1) command return_code out er

/-- Outcome of `subprocess.run` on a given command: either the child ran and
exited (with exit code and the text of its two streams), or spawning raised an
exception with the given message. -/
inductive SpawnOutcome where
  | ok : Int → String → String → SpawnOutcome
  | err : String → SpawnOutcome
deriving DecidableEq

/-- `execute_command` (cli.py lines 193-232), parameterised by the spawn oracle
`sys`. With `capture_output` the child's streams are returned as (non-null)
strings, otherwise both are `none`; a spawn exception is caught and converted
to `(1, none, some msg)` in either mode. -/
def execute_command (sys : String → SpawnOutcome) (command : String)
    (capture_output : Bool) : Int × Option String × Option String :=
  match sys command with
  | SpawnOutcome.ok return_code out er =>
    if capture_output then (return_code, some out, some er) else (return_code, none, none)
  | SpawnOutcome.err msg => (1, none, some msg)

/-- `process_command` (cli.py lines 235-282): run the interceptor loop starting
from `modified_command = command`, `should_execute = True`; if allowed, execute
the final command and run the callback loop with the ORIGINAL command and the
result; return the result, or `none` when blocked. The second component is the
trace of the run. -/
def process_command (reg : HookRegistry) (sys : String → SpawnOutcome)
    (command : String) (capture_output : Bool) :
    Option (Int × Option String × Option String) × List Event :=
  let r := interceptorLoop reg.get_interceptors 0 command command true
  if r.2.1 then
    let res := execute_command sys r.1 capture_output
    let t2 := callbackLoop reg.get_callbacks 0 command res.1 res.2.1 res.2.2
    (some res, r.2.2 ++ Event.execCall r.1 capture_output :: t2)
  else (none, r.2.2)

/-- A registry operation a loaded hook file may perform (the file's top-level
code calls back into `HookRegistry`, cf. the decorators `terminal_interceptor`
and `terminal_callback`, or `clear`). -/
inductive RegAction where
  | regInterceptor : Option String → InterceptorFunc → RegAction
  | regCallback : Option String → CallbackFunc → RegAction
  | clearAll : RegAction

/-- Apply one registry operation. -/
def applyAction (r : HookRegistry) : RegAction → HookRegistry
  | RegAction.regInterceptor pfx f => (r.register_interceptor f pfx).1
  | RegAction.regCallback pfx f => (r.register_callback f pfx).1
  | RegAction.clearAll => r.clear

/-- Abstraction of one Python file in the hook directory: whether
`importlib.util.spec_from_file_location` yields a loadable spec (otherwise the
file is skipped silently), the registry actions its top-level code performs
before completing or failing, and `some msg` when `exec_module` raises after
performing them. -/
structure HookFile where
  specOk : Bool
  actions : List RegAction
  failMsg : Option String

/-- Loading one file (the body of the `for file in directory_path.glob` loop):
a loadable file's pre-failure registrations always take effect; if it then
raises, the error is printed to stderr (returned as the diagnostic list) and
the loop continues. -/
def loadFile (r : HookRegistry) (file : HookFile) : HookRegistry × List String :=
  if file.specOk then
    let r2 := file.actions.foldl applyAction r
    match file.failMsg with
    | some msg => (r2, [msg])
    | none => (r2, [])
  else (r, [])

/-- The registry component of `loadFile`. -/
def loadFileFold (r : HookRegistry) (file : HookFile) : HookRegistry :=
  (loadFile r file).1

/-- The diagnostics one file contributes (they do not depend on the registry). -/
def fileDiags (file : HookFile) : List String :=
  if file.specOk then
    match file.failMsg with
    | some msg => [msg]
    | none => []
  else []

/-- Diagnostics of a whole directory pass, in file order. -/
def allDiags : List HookFile → List String
  | [] => []
  | file :: rest => fileDiags file ++ allDiags rest

/-- One step of the directory loop, threading registry and diagnostics. -/
def loadStep (acc : HookRegistry × List String) (file : HookFile) :
    HookRegistry × List String :=
  ((loadFile acc.1 file).1, acc.2 ++ (loadFile acc.1 file).2)

/-- Result of `load_hooks_from_directory`: the final registry, the two counts
of the returned dict (`int` in Python, so `Int` here: a hook file calling
`clear` can make the net change negative), and the stderr diagnostics. -/
structure LoadResult where
  reg : HookRegistry
  interceptorsAdded : Int
  callbacksAdded : Int
  diagnostics : List String

/-- `load_hooks_from_directory` (cli.py lines 146-190). `none` models a path
that does not exist and is the only error case; otherwise every file is
processed, failures are caught per file, and the counts are the net change of
the registry sizes over the whole pass. -/
def load_hooks_from_directory (r : HookRegistry) (dir : Option (List HookFile)) :
    Except String LoadResult :=
  match dir with
  | none => Except.error "Hook directory not found"
  | some files =>
    let initI : Int := r.get_interceptors.length
    let initC : Int := r.get_callbacks.length
    let final := files.foldl loadStep (r, [])
    Except.ok ⟨final.1, (final.1.get_interceptors.length : Int) - initI,
      (final.1.get_callbacks.length : Int) - initC, final.2⟩

/-- `true` iff the trace contains an invocation of interceptor number `i`. -/
def interceptorInvoked (t : List Event) (i : Nat) : Bool :=
  t.any fun e =>
    match e with
    | Event.interceptorCall j _ => j == i
    | _ => false

/-- A spawn oracle on which every command runs and exits 0 with empty output. -/
def sysOk : String → SpawnOutcome := fun _ => SpawnOutcome.ok 0 "" ""

/-- A spawn oracle on which no command can be spawned. -/
def spawnFailSys : String → SpawnOutcome := fun _ => SpawnOutcome.err "No such file or directory"

/-- The interceptor registrations among a sequence of registry operations, in
order. -/
def interceptorRegs : List RegAction → List (Option String × InterceptorFunc)
  | [] => []
  | RegAction.regInterceptor pfx f :: rest => (pfx, f) :: interceptorRegs rest
  | RegAction.regCallback _ _ :: rest => interceptorRegs rest
  | RegAction.clearAll :: rest => interceptorRegs rest

/-- The callback registrations among a sequence of registry operations, in
order. -/
def callbackRegs : List RegAction → List (Option String × CallbackFunc)
  | [] => []
  | RegAction.regCallback pfx f :: rest => (pfx, f) :: callbackRegs rest
  | RegAction.regInterceptor _ _ :: rest => callbackRegs rest
  | RegAction.clearAll :: rest => callbackRegs rest

/-- An interceptor that allows every command. -/
def allowAll : InterceptorFunc := fun _ => InterceptorResult.boolRes true

/-- An interceptor that blocks every command. -/
def blockAll : InterceptorFunc := fun _ => InterceptorResult.boolRes false

/-- An interceptor that raises on every command. -/
def raiseBoom : InterceptorFunc := fun _ => InterceptorResult.raises "boom"

/-- An interceptor that rewrites every command to `echo hi`. -/
def rewriteEchoHi : InterceptorFunc := fun _ => InterceptorResult.strRes "echo hi"

/-- An interceptor that returns a value that is neither a bool nor a string. -/
def returnNone : InterceptorFunc := fun _ => InterceptorResult.otherRes

/-- A callback that returns normally. -/
def okCb : CallbackFunc := fun _ _ _ _ => CallbackOutcome.ok

/-- A callback that raises on every invocation. -/
def raiseCb : CallbackFunc := fun _ _ _ _ => CallbackOutcome.raises "cb boom"

/-- A registry whose first interceptor blocks everything and whose second has
no prefix filter. -/
def c4Reg : HookRegistry := ⟨[(none, blockAll), (none, allowAll)], []⟩

/-- A hook file that registers two interceptors and one callback and loads
without error. -/
def hookFileA : HookFile :=
  ⟨true, [RegAction.regInterceptor none allowAll,
          RegAction.regInterceptor (some "git") allowAll,
          RegAction.regCallback none okCb], none⟩

/-- A hook file that fails before registering anything. -/
def hookFileBad : HookFile := ⟨true, [], some "boom in file"⟩

/-- Loading the two-file directory used as the concrete loader scenario. -/
def c5Load : Except String LoadResult :=
  load_hooks_from_directory HookRegistry.empty (some [hookFileA, hookFileBad])

/-- The (successful) result of that load. -/
def c5Res : LoadResult :=
  match c5Load with
  | Except.ok res => res
  | Except.error _ => ⟨HookRegistry.empty, 0, 0, []⟩

/-- Every interceptor invocation recorded in the trace names a hook that is in
the list (at position `i - idx`) and whose prefix guard passed on the ORIGINAL
command. -/
theorem interceptorLoop_call_mem (hooks : List (Option String × InterceptorFunc))
    (command : String) :
    ∀ (idx : Nat) (cur : String) (se : Bool) (i : Nat) (arg : String),
      Event.interceptorCall i arg ∈ (interceptorLoop hooks idx command cur se).2.2 →
      idx ≤ i ∧ ∃ pfx f, hooks.get? (i - idx) = some (pfx, f) ∧
        appliesTo pfx command = true := by
  induction hooks with
  | nil => intro idx cur se i arg h; simp [interceptorLoop] at h
  | cons hd tl ih =>
    obtain ⟨pfx, func⟩ := hd
    intro idx cur se i arg h
    simp only [interceptorLoop] at h
    by_cases hap : appliesTo pfx command = true
    · rw [if_pos hap] at h
      have tail_case : ∀ (cur2 : String) (se2 : Bool),
          Event.interceptorCall i arg ∈
            (interceptorLoop tl (idx + 1) command cur2 se2).2.2 →
          idx ≤ i ∧ ∃ pfx2 f, ((pfx, func) :: tl).get? (i - idx) = some (pfx2, f) ∧
            appliesTo pfx2 command = true := by
        intro cur2 se2 hmem
        obtain ⟨hle, pfx2, f, hget, hap2⟩ := ih (idx + 1) cur2 se2 i arg hmem
        refine ⟨by omega, pfx2, f, ?_, hap2⟩
        have hsub : i - idx = (i - (idx + 1)) + 1 := by omega
        rw [hsub, List.get?_cons_succ]
        exact hget
      have head_case : i = idx →
          idx ≤ i ∧ ∃ pfx2 f, ((pfx, func) :: tl).get? (i - idx) = some (pfx2, f) ∧
            appliesTo pfx2 command = true := by
        intro hi
        subst hi
        exact ⟨le_rfl, pfx, func, by simp, hap⟩
      rcases hfc : func cur with b | s | _ | msg <;> rw [hfc] at h
      · rcases b with _ | _
        · simp only [if_neg Bool.false_ne_true, List.mem_singleton] at h
          exact head_case (Event.interceptorCall.inj h).1
        · simp only [eq_self_iff_true, if_true, List.mem_cons] at h
          rcases h with h | h
          · exact head_case (Event.interceptorCall.inj h).1
          · exact tail_case cur true h
      · simp only [List.mem_cons] at h
        rcases h with h | h
        · exact head_case (Event.interceptorCall.inj h).1
        · exact tail_case s se h
      · simp only [List.mem_cons] at h
        rcases h with h | h
        · exact head_case (Event.interceptorCall.inj h).1
        · exact tail_case cur se h
      · simp only [List.mem_cons] at h
        rcases h with h | h | h
        · exact head_case (Event.interceptorCall.inj h).1
        · exact Event.noConfusion h
        · exact tail_case cur se h
    · rw [if_neg hap] at h
      obtain ⟨hle, pfx2, f, hget, hap2⟩ := ih (idx + 1) cur se i arg h
      refine ⟨by omega, pfx2, f, ?_, hap2⟩
      have hsub : i - idx = (i - (idx + 1)) + 1 := by omega
      rw [hsub, List.get?_cons_succ]
      exact hget

/-- If the interceptor loop (started with `should_execute = true`) comes back
with `should_execute = false`, then some invoked interceptor returned `False`
on the argument it received, and it is the last interceptor that ran. -/
theorem interceptorLoop_blocked (hooks : List (Option String × InterceptorFunc))
    (command : String) :
    ∀ (idx : Nat) (cur : String),
      (interceptorLoop hooks idx command cur true).2.1 = false →
      ∃ i arg pfx f,
        Event.interceptorCall i arg ∈ (interceptorLoop hooks idx command cur true).2.2 ∧
        hooks.get? (i - idx) = some (pfx, f) ∧ f arg = InterceptorResult.boolRes false ∧
        ∀ (j : Nat) (arg2 : String),
          Event.interceptorCall j arg2 ∈ (interceptorLoop hooks idx command cur true).2.2 →
          j ≤ i := by
  induction hooks with
  | nil => intro idx cur hb; simp [interceptorLoop] at hb
  | cons hd tl ih =>
    obtain ⟨pfx, func⟩ := hd
    intro idx cur hb
    by_cases hap : appliesTo pfx command = true
    · simp only [interceptorLoop, if_pos hap] at hb ⊢
      rcases hfc : func cur with b | s | _ | msg <;> simp only [hfc] at hb ⊢
      · rcases b with _ | _
        · refine ⟨idx, cur, pfx, func, ?_, by simp, hfc, ?_⟩
          · simp
          · intro j arg2 hj
            simp only [Bool.false_eq_true, if_false, List.mem_singleton] at hj
            exact le_of_eq (Event.interceptorCall.inj hj).1
        · simp only [eq_self_iff_true, if_true] at hb ⊢
          obtain ⟨i, arg, pfx2, f, hmem, hget, hf, hbound⟩ := ih (idx + 1) cur hb
          have hge : idx + 1 ≤ i :=
            (interceptorLoop_call_mem tl command (idx + 1) cur true i arg hmem).1
          refine ⟨i, arg, pfx2, f, List.mem_cons_of_mem _ hmem, ?_, hf, ?_⟩
          · have hsub : i - idx = (i - (idx + 1)) + 1 := by omega
            rw [hsub, List.get?_cons_succ]
            exact hget
          · intro j arg2 hj
            rcases List.mem_cons.mp hj with hj | hj
            · have := (Event.interceptorCall.inj hj).1
              omega
            · exact hbound j arg2 hj
      · obtain ⟨i, arg, pfx2, f, hmem, hget, hf, hbound⟩ := ih (idx + 1) s hb
        have hge : idx + 1 ≤ i :=
          (interceptorLoop_call_mem tl command (idx + 1) s true i arg hmem).1
        refine ⟨i, arg, pfx2, f, List.mem_cons_of_mem _ hmem, ?_, hf, ?_⟩
        · have hsub : i - idx = (i - (idx + 1)) + 1 := by omega
          rw [hsub, List.get?_cons_succ]
          exact hget
        · intro j arg2 hj
          rcases List.mem_cons.mp hj with hj | hj
          · have := (Event.interceptorCall.inj hj).1
            omega
          · exact hbound j arg2 hj
      · obtain ⟨i, arg, pfx2, f, hmem, hget, hf, hbound⟩ := ih (idx + 1) cur hb
        have hge : idx + 1 ≤ i :=
          (interceptorLoop_call_mem tl command (idx + 1) cur true i arg hmem).1
        refine ⟨i, arg, pfx2, f, List.mem_cons_of_mem _ hmem, ?_, hf, ?_⟩
        · have hsub : i - idx = (i - (idx + 1)) + 1 := by omega
          rw [hsub, List.get?_cons_succ]
          exact hget
        · intro j arg2 hj
          rcases List.mem_cons.mp hj with hj | hj
          · have := (Event.interceptorCall.inj hj).1
            omega
          · exact hbound j arg2 hj
      · obtain ⟨i, arg, pfx2, f, hmem, hget, hf, hbound⟩ := ih (idx + 1) cur hb
        have hge : idx + 1 ≤ i :=
          (interceptorLoop_call_mem tl command (idx + 1) cur true i arg hmem).1
        refine ⟨i, arg, pfx2, f, ?_, ?_, hf, ?_⟩
        · exact List.mem_cons_of_mem _ (List.mem_cons_of_mem _ hmem)
        · have hsub : i - idx = (i - (idx + 1)) + 1 := by omega
          rw [hsub, List.get?_cons_succ]
          exact hget
        · intro j arg2 hj
          rcases List.mem_cons.mp hj with hj | hj
          · have := (Event.interceptorCall.inj hj).1
            omega
          · rcases List.mem_cons.mp hj with hj | hj
            · exact Event.noConfusion hj
            · exact hbound j arg2 hj
    · simp only [interceptorLoop, if_neg hap] at hb ⊢
      obtain ⟨i, arg, pfx2, f, hmem, hget, hf, hbound⟩ := ih (idx + 1) cur hb
      have hge : idx + 1 ≤ i :=
        (interceptorLoop_call_mem tl command (idx + 1) cur true i arg hmem).1
      refine ⟨i, arg, pfx2, f, hmem, ?_, hf, hbound⟩
      have hsub : i - idx = (i - (idx + 1)) + 1 := by omega
      rw [hsub, List.get?_cons_succ]
      exact hget

/-- Conversely, if some invoked interceptor returned `False` on the argument it
received, the loop comes back with `should_execute = false`. -/
theorem interceptorLoop_block_of_false (hooks : List (Option String × InterceptorFunc))
    (command : String) :
    ∀ (idx : Nat) (cur : String) (se : Bool) (i : Nat) (arg : String)
      (pfx : Option String) (f : InterceptorFunc),
      Event.interceptorCall i arg ∈ (interceptorLoop hooks idx command cur se).2.2 →
      hooks.get? (i - idx) = some (pfx, f) →
      f arg = InterceptorResult.boolRes false →
      (interceptorLoop hooks idx command cur se).2.1 = false := by
  induction hooks with
  | nil => intro idx cur se i arg pfx f hmem; simp [interceptorLoop] at hmem
  | cons hd tl ih =>
    obtain ⟨pfx0, func⟩ := hd
    intro idx cur se i arg pfx f hmem hget hf
    by_cases hap : appliesTo pfx0 command = true
    · simp only [interceptorLoop, if_pos hap] at hmem ⊢
      rcases hfc : func cur with b | s | _ | msg <;> simp only [hfc] at hmem ⊢
      · rcases b with _ | _
        · simp
        · simp only [eq_self_iff_true, if_true, List.mem_cons] at hmem ⊢
          rcases hmem with h | h
          · obtain ⟨hi, ha⟩ := Event.interceptorCall.inj h
            subst hi
            subst ha
            rw [Nat.sub_self, List.get?_cons_zero] at hget
            obtain ⟨hp, hfeq⟩ := Prod.mk.injEq .. ▸ Option.some.inj hget
            rw [← hfeq] at hf
            rw [hfc] at hf
            exact absurd (InterceptorResult.boolRes.inj hf) (by simp)
          · have hge : idx + 1 ≤ i :=
              (interceptorLoop_call_mem tl command (idx + 1) cur true i arg h).1
            have hsub : i - idx = (i - (idx + 1)) + 1 := by omega
            rw [hsub, List.get?_cons_succ] at hget
            exact ih (idx + 1) cur true i arg pfx f h hget hf
      · rcases List.mem_cons.mp hmem with h | h
        · obtain ⟨hi, ha⟩ := Event.interceptorCall.inj h
          subst hi
          subst ha
          rw [Nat.sub_self, List.get?_cons_zero] at hget
          obtain ⟨hp, hfeq⟩ := Prod.mk.injEq .. ▸ Option.some.inj hget
          rw [← hfeq] at hf
          rw [hfc] at hf
          exact InterceptorResult.noConfusion hf
        · have hge : idx + 1 ≤ i :=
            (interceptorLoop_call_mem tl command (idx + 1) s se i arg h).1
          have hsub : i - idx = (i - (idx + 1)) + 1 := by omega
          rw [hsub, List.get?_cons_succ] at hget
          exact ih (idx + 1) s se i arg pfx f h hget hf
      · rcases List.mem_cons.mp hmem with h | h
        · obtain ⟨hi, ha⟩ := Event.interceptorCall.inj h
          subst hi
          subst ha
          rw [Nat.sub_self, List.get?_cons_zero] at hget
          obtain ⟨hp, hfeq⟩ := Prod.mk.injEq .. ▸ Option.some.inj hget
          rw [← hfeq] at hf
          rw [hfc] at hf
          exact InterceptorResult.noConfusion hf
        · have hge : idx + 1 ≤ i :=
            (interceptorLoop_call_mem tl command (idx + 1) cur se i arg h).1
          have hsub : i - idx = (i - (idx + 1)) + 1 := by omega
          rw [hsub, List.get?_cons_succ] at hget
          exact ih (idx + 1) cur se i arg pfx f h hget hf
      · rcases List.mem_cons.mp hmem with h | h
        · obtain ⟨hi, ha⟩ := Event.interceptorCall.inj h
          subst hi
          subst ha
          rw [Nat.sub_self, List.get?_cons_zero] at hget
          obtain ⟨hp, hfeq⟩ := Prod.mk.injEq .. ▸ Option.some.inj hget
          rw [← hfeq] at hf
          rw [hfc] at hf
          exact InterceptorResult.noConfusion hf
        · rcases List.mem_cons.mp h with h2 | h2
          · exact Event.noConfusion h2
          · have hge : idx + 1 ≤ i :=
              (interceptorLoop_call_mem tl command (idx + 1) cur se i arg h2).1
            have hsub : i - idx = (i - (idx + 1)) + 1 := by omega
            rw [hsub, List.get?_cons_succ] at hget
            exact ih (idx + 1) cur se i arg pfx f h2 hget hf
    · simp only [interceptorLoop, if_neg hap] at hmem ⊢
      have hge : idx + 1 ≤ i :=
        (interceptorLoop_call_mem tl command (idx + 1) cur se i arg hmem).1
      have hsub : i - idx = (i - (idx + 1)) + 1 := by omega
      rw [hsub, List.get?_cons_succ] at hget
      exact ih (idx + 1) cur se i arg pfx f hmem hget hf

/-- If the loop never blocks, every interceptor whose prefix guard passes on
the original command is invoked. -/
theorem interceptorLoop_complete (hooks : List (Option String × InterceptorFunc))
    (command : String) :
    ∀ (idx : Nat) (cur : String),
      (interceptorLoop hooks idx command cur true).2.1 = true →
      ∀ (k : Nat) (pfx : Option String) (f : InterceptorFunc),
        hooks.get? k = some (pfx, f) → appliesTo pfx command = true →
        ∃ arg, Event.interceptorCall (idx + k) arg ∈
          (interceptorLoop hooks idx command cur true).2.2 := by
  induction hooks with
  | nil => intro idx cur hse k pfx f hget; simp at hget
  | cons hd tl ih =>
    obtain ⟨pfx0, func⟩ := hd
    intro idx cur hse k pfx f hget hap
    by_cases hap0 : appliesTo pfx0 command = true
    · simp only [interceptorLoop, if_pos hap0] at hse ⊢
      rcases hfc : func cur with b | s | _ | msg <;> simp only [hfc] at hse ⊢
      · rcases b with _ | _
        · simp at hse
        · simp only [eq_self_iff_true, if_true] at hse ⊢
          rcases k with _ | k
          · exact ⟨cur, by simp⟩
          · rw [List.get?_cons_succ] at hget
            obtain ⟨arg, hmem⟩ := ih (idx + 1) cur hse k pfx f hget hap
            have hadd : idx + (k + 1) = (idx + 1) + k := by omega
            rw [hadd]
            exact ⟨arg, List.mem_cons_of_mem _ hmem⟩
      · rcases k with _ | k
        · exact ⟨cur, by simp⟩
        · rw [List.get?_cons_succ] at hget
          obtain ⟨arg, hmem⟩ := ih (idx + 1) s hse k pfx f hget hap
          have hadd : idx + (k + 1) = (idx + 1) + k := by omega
          rw [hadd]
          exact ⟨arg, List.mem_cons_of_mem _ hmem⟩
      · rcases k with _ | k
        · exact ⟨cur, by simp⟩
        · rw [List.get?_cons_succ] at hget
          obtain ⟨arg, hmem⟩ := ih (idx + 1) cur hse k pfx f hget hap
          have hadd : idx + (k + 1) = (idx + 1) + k := by omega
          rw [hadd]
          exact ⟨arg, List.mem_cons_of_mem _ hmem⟩
      · rcases k with _ | k
        · exact ⟨cur, by simp⟩
        · rw [List.get?_cons_succ] at hget
          obtain ⟨arg, hmem⟩ := ih (idx + 1) cur hse k pfx f hget hap
          have hadd : idx + (k + 1) = (idx + 1) + k := by omega
          rw [hadd]
          exact ⟨arg, List.mem_cons_of_mem _ (List.mem_cons_of_mem _ hmem)⟩
    · simp only [interceptorLoop, if_neg hap0] at hse ⊢
      rcases k with _ | k
      · rw [List.get?_cons_zero] at hget
        obtain ⟨hp, hfeq⟩ := Prod.mk.injEq .. ▸ Option.some.inj hget
        rw [← hp] at hap
        exact absurd hap hap0
      · rw [List.get?_cons_succ] at hget
        obtain ⟨arg, hmem⟩ := ih (idx + 1) cur hse k pfx f hget hap
        have hadd : idx + (k + 1) = (idx + 1) + k := by omega
        rw [hadd]
        exact ⟨arg, hmem⟩

/-- The interceptor loop emits only interceptor events. -/
theorem interceptorLoop_events (hooks : List (Option String × InterceptorFunc))
    (command : String) :
    ∀ (idx : Nat) (cur : String) (se : Bool) (e : Event),
      e ∈ (interceptorLoop hooks idx command cur se).2.2 →
      (∃ i a, e = Event.interceptorCall i a) ∨ ∃ i m, e = Event.interceptorErr i m := by
  induction hooks with
  | nil => intro idx cur se e h; simp [interceptorLoop] at h
  | cons hd tl ih =>
    obtain ⟨pfx, func⟩ := hd
    intro idx cur se e h
    simp only [interceptorLoop] at h
    by_cases hap : appliesTo pfx command = true
    · rw [if_pos hap] at h
      rcases hfc : func cur with b | s | _ | msg <;> rw [hfc] at h
      · rcases b with _ | _
        · simp only [if_neg Bool.false_ne_true, List.mem_singleton] at h
          exact Or.inl ⟨idx, cur, h⟩
        · simp only [eq_self_iff_true, if_true, List.mem_cons] at h
          rcases h with h | h
          · exact Or.inl ⟨idx, cur, h⟩
          · exact ih (idx + 1) cur true e h
      · simp only [List.mem_cons] at h
        rcases h with h | h
        · exact Or.inl ⟨idx, cur, h⟩
        · exact ih (idx + 1) s se e h
      · simp only [List.mem_cons] at h
        rcases h with h | h
        · exact Or.inl ⟨idx, cur, h⟩
        · exact ih (idx + 1) cur se e h
      · simp only [List.mem_cons] at h
        rcases h with h | h | h
        · exact Or.inl ⟨idx, cur, h⟩
        · exact Or.inr ⟨idx, msg, h⟩
        · exact ih (idx + 1) cur se e h
    · rw [if_neg hap] at h
      exact ih (idx + 1) cur se e h

/-- Appending interceptor lists: when the first part does not block, the loop
continues through the second part, starting from the rewritten command the
first part produced. -/
theorem interceptorLoop_append (pre rest : List (Option String × InterceptorFunc))
    (command : String) :
    ∀ (idx : Nat) (cur : String) (se : Bool),
      (interceptorLoop pre idx command cur se).2.1 = true →
      interceptorLoop (pre ++ rest) idx command cur se =
        ((interceptorLoop rest (idx + pre.length) command
            (interceptorLoop pre idx command cur se).1 true).1,
         (interceptorLoop rest (idx + pre.length) command
            (interceptorLoop pre idx command cur se).1 true).2.1,
         (interceptorLoop pre idx command cur se).2.2 ++
           (interceptorLoop rest (idx + pre.length) command
             (interceptorLoop pre idx command cur se).1 true).2.2) := by
  induction pre with
  | nil =>
    intro idx cur se hse
    simp only [interceptorLoop] at hse
    subst hse
    simp [interceptorLoop]
  | cons hd tl ih =>
    obtain ⟨pfx, func⟩ := hd
    intro idx cur se hse
    by_cases hap : appliesTo pfx command = true
    · simp only [List.cons_append, interceptorLoop, if_pos hap, List.append_eq] at hse ⊢
      rcases hfc : func cur with b | s | _ | msg <;> simp only [hfc] at hse ⊢
      · rcases b with _ | _
        · simp at hse
        · simp only [eq_self_iff_true, if_true] at hse ⊢
          rw [ih (idx + 1) cur true hse]
          have hadd : idx + 1 + tl.length = idx + (tl.length + 1) := by omega
          simp [hadd]
      · rw [ih (idx + 1) s se hse]
        have hadd : idx + 1 + tl.length = idx + (tl.length + 1) := by omega
        simp [hadd]
      · rw [ih (idx + 1) cur se hse]
        have hadd : idx + 1 + tl.length = idx + (tl.length + 1) := by omega
        simp [hadd]
      · rw [ih (idx + 1) cur se hse]
        have hadd : idx + 1 + tl.length = idx + (tl.length + 1) := by omega
        simp [hadd]
    · simp only [List.cons_append, interceptorLoop, if_neg hap, List.append_eq] at hse ⊢
      rw [ih (idx + 1) cur se hse]
      have hadd : idx + 1 + tl.length = idx + (tl.length + 1) := by omega
      simp [hadd]

/-- If no interceptor in the list ever returns a string, the current command
is left unchanged by the loop. -/
theorem interceptorLoop_no_rewrite (hooks : List (Option String × InterceptorFunc))
    (command : String) :
    ∀ (idx : Nat) (cur : String) (se : Bool),
      (∀ pfx f, (pfx, f) ∈ hooks → ∀ s y, f s ≠ InterceptorResult.strRes y) →
      (interceptorLoop hooks idx command cur se).1 = cur := by
  induction hooks with
  | nil => intro idx cur se hno; simp [interceptorLoop]
  | cons hd tl ih =>
    obtain ⟨pfx, func⟩ := hd
    intro idx cur se hno
    have hno_tl : ∀ pfx2 f, (pfx2, f) ∈ tl → ∀ s y, f s ≠ InterceptorResult.strRes y :=
      fun pfx2 f hmem => hno pfx2 f (List.mem_cons_of_mem _ hmem)
    by_cases hap : appliesTo pfx command = true
    · simp only [interceptorLoop, if_pos hap]
      rcases hfc : func cur with b | s | _ | msg <;> simp only [hfc]
      · rcases b with _ | _
        · simp
        · simp only [eq_self_iff_true, if_true]
          exact ih (idx + 1) cur true hno_tl
      · exact absurd hfc (hno pfx func (List.mem_cons_self _ _) cur s)
      · exact ih (idx + 1) cur se hno_tl
      · exact ih (idx + 1) cur se hno_tl
    · simp only [interceptorLoop, if_neg hap]
      exact ih (idx + 1) cur se hno_tl

/-- Every callback invocation recorded in the trace names a callback that is in
the list, whose prefix guard passed on the ORIGINAL command, and the
invocation carried the original command and the execution result unchanged. -/
theorem callbackLoop_call_mem (cbs : List (Option String × CallbackFunc))
    (command : String) :
    ∀ (idx : Nat) (rc : Int) (o e : Option String) (i : Nat) (c : String)
      (rc2 : Int) (o2 e2 : Option String),
      Event.callbackCall i c rc2 o2 e2 ∈ callbackLoop cbs idx command rc o e →
      idx ≤ i ∧ c = command ∧ rc2 = rc ∧ o2 = o ∧ e2 = e ∧
        ∃ pfx g, cbs.get? (i - idx) = some (pfx, g) ∧ appliesTo pfx command = true := by
  induction cbs with
  | nil => intro idx rc o e i c rc2 o2 e2 h; simp [callbackLoop] at h
  | cons hd tl ih =>
    obtain ⟨pfx, func⟩ := hd
    intro idx rc o e i c rc2 o2 e2 h
    have tail_case :
        Event.callbackCall i c rc2 o2 e2 ∈ callbackLoop tl (idx + 1) command rc o e →
        idx ≤ i ∧ c = command ∧ rc2 = rc ∧ o2 = o ∧ e2 = e ∧
          ∃ pfx2 g, ((pfx, func) :: tl).get? (i - idx) = some (pfx2, g) ∧
            appliesTo pfx2 command = true := by
      intro hmem
      obtain ⟨hle, hc, hrc, ho, he, pfx2, g, hget, hap2⟩ := ih (idx + 1) rc o e i c rc2 o2 e2 hmem
      refine ⟨by omega, hc, hrc, ho, he, pfx2, g, ?_, hap2⟩
      have hsub : i - idx = (i - (idx + 1)) + 1 := by omega
      rw [hsub, List.get?_cons_succ]
      exact hget
    have head_case :
        Event.callbackCall i c rc2 o2 e2 = Event.callbackCall idx command rc o e →
        appliesTo pfx command = true →
        idx ≤ i ∧ c = command ∧ rc2 = rc ∧ o2 = o ∧ e2 = e ∧
          ∃ pfx2 g, ((pfx, func) :: tl).get? (i - idx) = some (pfx2, g) ∧
            appliesTo pfx2 command = true := by
      intro heq hap
      obtain ⟨hi, hc, hrc, ho, he⟩ := Event.callbackCall.inj heq
      subst hi
      exact ⟨le_rfl, hc, hrc, ho, he, pfx, func, by simp, hap⟩
    by_cases hap : appliesTo pfx command = true
    · simp only [callbackLoop, if_pos hap] at h
      rcases hfc : func command rc o e with _ | msg <;> simp only [hfc] at h
      · rcases List.mem_cons.mp h with h | h
        · exact head_case h hap
        · exact tail_case h
      · rcases List.mem_cons.mp h with h | h
        · exact head_case h hap
        · rcases List.mem_cons.mp h with h2 | h2
          · exact Event.noConfusion h2
          · exact tail_case h2
    · simp only [callbackLoop, if_neg hap] at h
      exact tail_case h

/-- Every callback whose prefix guard passes on the original command is
invoked, with the original command and the execution result. -/
theorem callbackLoop_complete (cbs : List (Option String × CallbackFunc))
    (command : String) :
    ∀ (idx : Nat) (rc : Int) (o e : Option String) (k : Nat) (pfx : Option String)
      (g : CallbackFunc),
      cbs.get? k = some (pfx, g) → appliesTo pfx command = true →
      Event.callbackCall (idx + k) command rc o e ∈ callbackLoop cbs idx command rc o e := by
  induction cbs with
  | nil => intro idx rc o e k pfx g hget; simp at hget
  | cons hd tl ih =>
    obtain ⟨pfx0, func⟩ := hd
    intro idx rc o e k pfx g hget hap
    by_cases hap0 : appliesTo pfx0 command = true
    · simp only [callbackLoop, if_pos hap0]
      rcases hfc : func command rc o e with _ | msg <;> simp only [hfc]
      · rcases k with _ | k
        · simp
        · rw [List.get?_cons_succ] at hget
          have hadd : idx + (k + 1) = (idx + 1) + k := by omega
          rw [hadd]
          exact List.mem_cons_of_mem _ (ih (idx + 1) rc o e k pfx g hget hap)
      · rcases k with _ | k
        · simp
        · rw [List.get?_cons_succ] at hget
          have hadd : idx + (k + 1) = (idx + 1) + k := by omega
          rw [hadd]
          exact List.mem_cons_of_mem _
            (List.mem_cons_of_mem _ (ih (idx + 1) rc o e k pfx g hget hap))
    · simp only [callbackLoop, if_neg hap0]
      rcases k with _ | k
      · rw [List.get?_cons_zero] at hget
        obtain ⟨hp, hfeq⟩ := Prod.mk.injEq .. ▸ Option.some.inj hget
        rw [← hp] at hap
        exact absurd hap hap0
      · rw [List.get?_cons_succ] at hget
        have hadd : idx + (k + 1) = (idx + 1) + k := by omega
        rw [hadd]
        exact ih (idx + 1) rc o e k pfx g hget hap

/-- The callback loop emits only callback events. -/
theorem callbackLoop_events (cbs : List (Option String × CallbackFunc))
    (command : String) :
    ∀ (idx : Nat) (rc : Int) (o e : Option String) (ev : Event),
      ev ∈ callbackLoop cbs idx command rc o e →
      (∃ i c rc2 o2 e2, ev = Event.callbackCall i c rc2 o2 e2) ∨
        ∃ i m, ev = Event.callbackErr i m := by
  induction cbs with
  | nil => intro idx rc o e ev h; simp [callbackLoop] at h
  | cons hd tl ih =>
    obtain ⟨pfx, func⟩ := hd
    intro idx rc o e ev h
    by_cases hap : appliesTo pfx command = true
    · simp only [callbackLoop, if_pos hap] at h
      rcases hfc : func command rc o e with _ | msg <;> simp only [hfc] at h
      · rcases List.mem_cons.mp h with h | h
        · exact Or.inl ⟨idx, command, rc, o, e, h⟩
        · exact ih (idx + 1) rc o e ev h
      · rcases List.mem_cons.mp h with h | h
        · exact Or.inl ⟨idx, command, rc, o, e, h⟩
        · rcases List.mem_cons.mp h with h2 | h2
          · exact Or.inr ⟨idx, msg, h2⟩
          · exact ih (idx + 1) rc o e ev h2
    · simp only [callbackLoop, if_neg hap] at h
      exact ih (idx + 1) rc o e ev h

/-- `process_command` when no interceptor blocks: the executor runs on the
rewritten command and the callbacks run on the original command. -/
theorem process_command_not_blocked (reg : HookRegistry) (sys : String → SpawnOutcome)
    (command : String) (capture_output : Bool)
    (hse : (interceptorLoop reg.get_interceptors 0 command command true).2.1 = true) :
    process_command reg sys command capture_output =
      (some (execute_command sys
          (interceptorLoop reg.get_interceptors 0 command command true).1 capture_output),
       (interceptorLoop reg.get_interceptors 0 command command true).2.2 ++
         Event.execCall (interceptorLoop reg.get_interceptors 0 command command true).1
           capture_output ::
         callbackLoop reg.get_callbacks 0 command
           (execute_command sys
             (interceptorLoop reg.get_interceptors 0 command command true).1
             capture_output).1
           (execute_command sys
             (interceptorLoop reg.get_interceptors 0 command command true).1
             capture_output).2.1
           (execute_command sys
             (interceptorLoop reg.get_interceptors 0 command command true).1
             capture_output).2.2) := by
  simp only [process_command, hse, if_true]

/-- `process_command` when some interceptor blocks: the run stops after the
interceptor loop. -/
theorem process_command_blocked (reg : HookRegistry) (sys : String → SpawnOutcome)
    (command : String) (capture_output : Bool)
    (hse : (interceptorLoop reg.get_interceptors 0 command command true).2.1 = false) :
    process_command reg sys command capture_output =
      (none, (interceptorLoop reg.get_interceptors 0 command command true).2.2) := by
  simp only [process_command, hse, Bool.false_eq_true, if_false]

/-- The diagnostics one file produces do not depend on the registry state. -/
theorem loadFile_snd (r : HookRegistry) (file : HookFile) :
    (loadFile r file).2 = fileDiags file := by
  rcases file with ⟨sok, acts, fm⟩
  rcases sok with _ | _
  · simp [loadFile, fileDiags]
  · rcases fm with _ | msg <;> simp [loadFile, fileDiags]

/-- The directory loop computes the per-file registry fold and accumulates the
per-file diagnostics in order. -/
theorem loadStep_foldl (files : List HookFile) :
    ∀ (r : HookRegistry) (ds : List String),
      files.foldl loadStep (r, ds) = (files.foldl loadFileFold r, ds ++ allDiags files) := by
  induction files with
  | nil => intro r ds; simp [allDiags]
  | cons hd tl ih =>
    intro r ds
    simp only [List.foldl_cons]
    have hstep : loadStep (r, ds) hd = (loadFileFold r hd, ds ++ fileDiags hd) := by
      simp [loadStep, loadFileFold, loadFile_snd]
    rw [hstep, ih]
    simp [allDiags, List.append_assoc]

/-- Diagnostics distribute over directory concatenation. -/
theorem allDiags_append (a b : List HookFile) :
    allDiags (a ++ b) = allDiags a ++ allDiags b := by
  induction a with
  | nil => simp [allDiags]
  | cons hd tl ih => simp [allDiags, ih]

/-- Registration order, for any clear-free sequence of register calls: the
final lists are the initial lists extended by the registrations in order. -/
theorem applyAction_foldl (acts : List RegAction) :
    ∀ (r : HookRegistry), (∀ a ∈ acts, a ≠ RegAction.clearAll) →
      (acts.foldl applyAction r).get_interceptors =
        r.get_interceptors ++ interceptorRegs acts ∧
      (acts.foldl applyAction r).get_callbacks = r.get_callbacks ++ callbackRegs acts := by
  induction acts with
  | nil => intro r hno; simp [interceptorRegs, callbackRegs]
  | cons hd tl ih =>
    intro r hno
    have hno_tl : ∀ a ∈ tl, a ≠ RegAction.clearAll :=
      fun a ha => hno a (List.mem_cons_of_mem _ ha)
    rcases hd with ⟨pfx, f⟩ | ⟨pfx, f⟩ | _
    · obtain ⟨h1, h2⟩ := ih ((r.register_interceptor f pfx).1) hno_tl
      constructor
      · rw [List.foldl_cons]
        show (tl.foldl applyAction (r.register_interceptor f pfx).1).get_interceptors = _
        rw [h1]
        simp [HookRegistry.register_interceptor, HookRegistry.get_interceptors,
          interceptorRegs, List.append_assoc]
      · rw [List.foldl_cons]
        show (tl.foldl applyAction (r.register_interceptor f pfx).1).get_callbacks = _
        rw [h2]
        simp [HookRegistry.register_interceptor, HookRegistry.get_callbacks, callbackRegs]
    · obtain ⟨h1, h2⟩ := ih ((r.register_callback f pfx).1) hno_tl
      constructor
      · rw [List.foldl_cons]
        show (tl.foldl applyAction (r.register_callback f pfx).1).get_interceptors = _
        rw [h1]
        simp [HookRegistry.register_callback, HookRegistry.get_interceptors, interceptorRegs]
      · rw [List.foldl_cons]
        show (tl.foldl applyAction (r.register_callback f pfx).1).get_callbacks = _
        rw [h2]
        simp [HookRegistry.register_callback, HookRegistry.get_callbacks,
          callbackRegs, List.append_assoc]
    · exact absurd rfl (hno _ (List.mem_cons_self _ _))

/-- C7: for every command, if the child process cannot be spawned,
`execute_command` does not raise: it returns exit code 1, stdout `none`, and a
non-`none` stderr carrying the description of the spawn failure. -/
theorem C7_spawn_failure_result (sys : String → SpawnOutcome) (command : String)
    (capture_output : Bool) (msg : String)
    (hspawn : sys command = SpawnOutcome.err msg) :
    execute_command sys command capture_output = (1, none, some msg) ∧
      (execute_command sys command capture_output).2.2 ≠ none := by
  constructor
  · simp [execute_command, hspawn]
  · simp [execute_command, hspawn]

/-- C7 witness: a concrete spawn failure. -/
theorem C7_witness :
    execute_command spawnFailSys "ls" true = (1, none, some "No such file or directory") :=
  (C7_spawn_failure_result spawnFailSys "ls" true "No such file or directory" rfl).1

/-- C8 counterexample: with `capture_output = false`, a spawn failure still
yields a non-`none` stderr, so the claim that capture-off always returns
`stdout = none ∧ stderr = none` is false on the code. -/
theorem C8_counterexample :
    execute_command spawnFailSys "ls" false = (1, none, some "No such file or directory") ∧
      (execute_command spawnFailSys "ls" false).2.2 ≠ none := by
  constructor
  · rfl
  · simp [execute_command, spawnFailSys]

/-- C8 amended: on a successfully spawned process, `execute_command` with
`capture_output = false` returns `stdout = none` and `stderr = none`, and with
`capture_output = true` returns non-`none` (possibly empty) strings for both;
on a spawn failure stderr carries the failure message even when capture is
off. -/
theorem C8_capture_toggling (sys : String → SpawnOutcome) (command : String)
    (rc : Int) (out er : String)
    (hspawn : sys command = SpawnOutcome.ok rc out er) :
    execute_command sys command false = (rc, none, none) ∧
      execute_command sys command true = (rc, some out, some er) ∧
      (execute_command sys command true).2.1 ≠ none ∧
      (execute_command sys command true).2.2 ≠ none := by
  refine ⟨?_, ?_, ?_, ?_⟩ <;> simp [execute_command, hspawn]

/-- C8 witness: a concrete successful spawn. -/
theorem C8_witness :
    execute_command sysOk "ls" false = (0, none, none) :=
  (C8_capture_toggling sysOk "ls" 0 "" "" rfl).1

/-- C9: each register call appends to the end of its list and returns the same
hook unchanged, the other list is untouched, and after any clear-free sequence
of register calls the lists hold exactly the registrations in call order, with
duplicates retained. -/
theorem C9_registration_order (r : HookRegistry) (func : InterceptorFunc)
    (funcC : CallbackFunc) (pfx : Option String) (acts : List RegAction)
    (hno : ∀ a ∈ acts, a ≠ RegAction.clearAll) :
    (r.register_interceptor func pfx).2 = func ∧
    (r.register_interceptor func pfx).1.get_interceptors =
      r.get_interceptors ++ [(pfx, func)] ∧
    (r.register_interceptor func pfx).1.get_callbacks = r.get_callbacks ∧
    (r.register_callback funcC pfx).2 = funcC ∧
    (r.register_callback funcC pfx).1.get_callbacks =
      r.get_callbacks ++ [(pfx, funcC)] ∧
    (r.register_callback funcC pfx).1.get_interceptors = r.get_interceptors ∧
    (acts.foldl applyAction r).get_interceptors =
      r.get_interceptors ++ interceptorRegs acts ∧
    (acts.foldl applyAction r).get_callbacks = r.get_callbacks ++ callbackRegs acts := by
  obtain ⟨h1, h2⟩ := applyAction_foldl acts r hno
  exact ⟨rfl, rfl, rfl, rfl, rfl, rfl, h1, h2⟩

/-- C9 witness: two duplicate registrations with the same prefix and hook are
both retained, in order. -/
theorem C9_witness :
    ([RegAction.regInterceptor (some "git") allowAll,
      RegAction.regInterceptor (some "git") allowAll].foldl applyAction
        HookRegistry.empty).get_interceptors =
      HookRegistry.empty.get_interceptors ++
        interceptorRegs [RegAction.regInterceptor (some "git") allowAll,
          RegAction.regInterceptor (some "git") allowAll] :=
  (C9_registration_order HookRegistry.empty allowAll okCb none
    [RegAction.regInterceptor (some "git") allowAll,
     RegAction.regInterceptor (some "git") allowAll]
    (by rintro a ha rfl; simp at ha)).2.2.2.2.2.2.1

/-- C10: an interceptor whose return value is neither a bool nor a string is
silently treated as allow-with-no-rewrite: `should_execute` and the current
command text are unchanged, no diagnostic is emitted, and the chain proceeds
to the next interceptor. -/
theorem C10_non_bool_non_str_ignored (pfx : Option String) (f : InterceptorFunc)
    (rest : List (Option String × InterceptorFunc)) (idx : Nat) (command cur : String)
    (hap : appliesTo pfx command = true) (hf : f cur = InterceptorResult.otherRes) :
    interceptorLoop ((pfx, f) :: rest) idx command cur true =
      ((interceptorLoop rest (idx + 1) command cur true).1,
       (interceptorLoop rest (idx + 1) command cur true).2.1,
       Event.interceptorCall idx cur ::
         (interceptorLoop rest (idx + 1) command cur true).2.2) := by
  simp [interceptorLoop, if_pos hap, hf]

/-- C10 witness: a concrete `None`-returning interceptor followed by another
interceptor. -/
theorem C10_witness :
    interceptorLoop [(none, returnNone), (none, blockAll)] 0 "ls" "ls" true =
      ((interceptorLoop [(none, blockAll)] 1 "ls" "ls" true).1,
       (interceptorLoop [(none, blockAll)] 1 "ls" "ls" true).2.1,
       Event.interceptorCall 0 "ls" ::
         (interceptorLoop [(none, blockAll)] 1 "ls" "ls" true).2.2) :=
  C10_non_bool_non_str_ignored none returnNone [(none, blockAll)] 0 "ls" "ls" rfl rfl

/-- C1: a hook that raises is isolated. An applicable interceptor that raises
has its error logged, passes the command text and `should_execute` through
unchanged (i.e. is treated as `Continue(true)`), and the remaining
interceptors run exactly as they would have; an applicable callback that
raises has its error logged and the remaining callbacks run exactly as they
would have; and the value `process_command` returns never depends on the
callbacks at all. -/
theorem C1_raising_hook_isolated
    (pfx : Option String) (f : InterceptorFunc)
    (rest : List (Option String × InterceptorFunc))
    (idx : Nat) (command cur msg : String)
    (qfx : Option String) (g : CallbackFunc)
    (crest : List (Option String × CallbackFunc))
    (jdx : Nat) (rc : Int) (o e : Option String) (msg2 : String)
    (ints : List (Option String × InterceptorFunc))
    (cbs : List (Option String × CallbackFunc))
    (sys : String → SpawnOutcome) (capture_output : Bool)
    (h1 : appliesTo pfx command = true) (h2 : f cur = InterceptorResult.raises msg)
    (h3 : appliesTo qfx command = true)
    (h4 : g command rc o e = CallbackOutcome.raises msg2) :
    interceptorLoop ((pfx, f) :: rest) idx command cur true =
      ((interceptorLoop rest (idx + 1) command cur true).1,
       (interceptorLoop rest (idx + 1) command cur true).2.1,
       Event.interceptorCall idx cur :: Event.interceptorErr idx msg ::
         (interceptorLoop rest (idx + 1) command cur true).2.2) ∧
    callbackLoop ((qfx, g) :: crest) jdx command rc o e =
      Event.callbackCall jdx command rc o e :: Event.callbackErr jdx msg2 ::
        callbackLoop crest (jdx + 1) command rc o e ∧
    (process_command ⟨ints, cbs⟩ sys command capture_output).1 =
      (process_command ⟨ints, []⟩ sys command capture_output).1 := by
  refine ⟨?_, ?_, ?_⟩
  · simp [interceptorLoop, if_pos h1, h2]
  · simp [callbackLoop, if_pos h3, h4]
  · simp only [process_command, HookRegistry.get_interceptors]
    cases hb : (interceptorLoop ints 0 command command true).2.1 <;> simp [hb]

/-- C1 witness: a raising interceptor followed by another interceptor. -/
theorem C1_witness :
    interceptorLoop [(none, raiseBoom), (none, allowAll)] 0 "ls" "ls" true =
      ((interceptorLoop [(none, allowAll)] 1 "ls" "ls" true).1,
       (interceptorLoop [(none, allowAll)] 1 "ls" "ls" true).2.1,
       Event.interceptorCall 0 "ls" :: Event.interceptorErr 0 "boom" ::
         (interceptorLoop [(none, allowAll)] 1 "ls" "ls" true).2.2) :=
  (C1_raising_hook_isolated none raiseBoom [(none, allowAll)] 0 "ls" "ls" "boom"
    none raiseCb [] 0 0 none none "cb boom" [] [] sysOk false rfl rfl rfl rfl).1

/-- C2: `process_command` returns `none` exactly when some invoked interceptor
returned `False` on the argument it received; in that case the blocking
interceptor is the last one that ran, the executor is never invoked, and no
callback is invoked; otherwise `process_command` returns the executor's
result on the final rewritten command. -/
theorem C2_short_circuit (reg : HookRegistry) (sys : String → SpawnOutcome)
    (command : String) (capture_output : Bool) :
    ((process_command reg sys command capture_output).1 = none ↔
      ∃ i arg pfx f,
        Event.interceptorCall i arg ∈ (process_command reg sys command capture_output).2 ∧
        reg.get_interceptors.get? i = some (pfx, f) ∧
        f arg = InterceptorResult.boolRes false) ∧
    ((process_command reg sys command capture_output).1 = none →
      (∃ i arg pfx f,
        Event.interceptorCall i arg ∈ (process_command reg sys command capture_output).2 ∧
        reg.get_interceptors.get? i = some (pfx, f) ∧
        f arg = InterceptorResult.boolRes false ∧
        ∀ j arg2,
          Event.interceptorCall j arg2 ∈ (process_command reg sys command capture_output).2 →
          j ≤ i) ∧
      (∀ c b, Event.execCall c b ∉ (process_command reg sys command capture_output).2) ∧
      (∀ i c rc o e,
        Event.callbackCall i c rc o e ∉ (process_command reg sys command capture_output).2)) ∧
    ((process_command reg sys command capture_output).1 ≠ none →
      (process_command reg sys command capture_output).1 =
        some (execute_command sys
          (interceptorLoop reg.get_interceptors 0 command command true).1
          capture_output)) := by
  cases hb : (interceptorLoop reg.get_interceptors 0 command command true).2.1
  case false =>
    have heq := process_command_blocked reg sys command capture_output hb
    obtain ⟨i, arg, pfx, f, hmem, hget, hf, hbound⟩ :=
      interceptorLoop_blocked reg.get_interceptors command 0 command hb
    rw [heq]
    refine ⟨?_, ?_, ?_⟩
    · exact ⟨fun _ => ⟨i, arg, pfx, f, hmem, hget, hf⟩, fun _ => rfl⟩
    · intro _
      refine ⟨⟨i, arg, pfx, f, hmem, hget, hf, hbound⟩, ?_, ?_⟩
      · intro c b hc
        rcases interceptorLoop_events reg.get_interceptors command 0 command true _ hc with
          ⟨i2, a2, h2⟩ | ⟨i2, m2, h2⟩ <;> exact Event.noConfusion h2
      · intro i2 c rc o e hc
        rcases interceptorLoop_events reg.get_interceptors command 0 command true _ hc with
          ⟨i3, a3, h3⟩ | ⟨i3, m3, h3⟩ <;> exact Event.noConfusion h3
    · intro hne
      exact absurd rfl hne
  case true =>
    have heq := process_command_not_blocked reg sys command capture_output hb
    rw [heq]
    refine ⟨?_, ?_, ?_⟩
    · constructor
      · intro h0
        exact absurd h0 (by simp)
      · rintro ⟨i, arg, pfx, f, hmem, hget, hf⟩
        exfalso
        rcases List.mem_append.mp hmem with hmem1 | hmem2
        · have hfalse := interceptorLoop_block_of_false reg.get_interceptors command 0 command
            true i arg pfx f hmem1 hget hf
          rw [hb] at hfalse
          exact Bool.noConfusion hfalse
        · rcases List.mem_cons.mp hmem2 with h2 | h2
          · exact Event.noConfusion h2
          · rcases callbackLoop_events reg.get_callbacks command 0 _ _ _ _ h2 with
              ⟨i2, c2, rc2, o2, e2, h3⟩ | ⟨i2, m2, h3⟩ <;> exact Event.noConfusion h3
    · intro h0
      exact absurd h0 (by simp)
    · intro _
      rfl

/-- C2 witness: a concrete blocked command. -/
theorem C2_witness :
    (process_command ⟨[(none, blockAll)], [(none, okCb)]⟩ sysOk "git status" false).1 =
      none := by
  have h := (C2_short_circuit ⟨[(none, blockAll)], [(none, okCb)]⟩ sysOk "git status" false).1
  exact h.mpr ⟨0, "git status", none, blockAll, by decide, rfl, rfl⟩

/-- C3: rewrite propagation. If the interceptors before position `|pre|` do not
block and the interceptor there returns `Replace(x)` on the command it
received, then the remaining interceptors run with current command `x`; if
none of them rewrites further (and none blocks), the executor receives `x`;
and every invoked callback receives the ORIGINAL input command, never a
rewritten version. -/
theorem C3_rewrite_semantics
    (pre post : List (Option String × InterceptorFunc)) (pfx : Option String)
    (f : InterceptorFunc) (cbs : List (Option String × CallbackFunc))
    (sys : String → SpawnOutcome) (command x : String) (capture_output : Bool)
    (hpre : (interceptorLoop pre 0 command command true).2.1 = true)
    (hap : appliesTo pfx command = true)
    (hf : f (interceptorLoop pre 0 command command true).1 = InterceptorResult.strRes x) :
    interceptorLoop (pre ++ (pfx, f) :: post) 0 command command true =
      ((interceptorLoop post (pre.length + 1) command x true).1,
       (interceptorLoop post (pre.length + 1) command x true).2.1,
       (interceptorLoop pre 0 command command true).2.2 ++
         Event.interceptorCall pre.length (interceptorLoop pre 0 command command true).1 ::
         (interceptorLoop post (pre.length + 1) command x true).2.2) ∧
    ((∀ q g, (q, g) ∈ post → ∀ s y, g s ≠ InterceptorResult.strRes y) →
      (interceptorLoop post (pre.length + 1) command x true).2.1 = true →
      Event.execCall x capture_output ∈
        (process_command ⟨pre ++ (pfx, f) :: post, cbs⟩ sys command capture_output).2) ∧
    (∀ i c rc o e,
      Event.callbackCall i c rc o e ∈
        (process_command ⟨pre ++ (pfx, f) :: post, cbs⟩ sys command capture_output).2 →
      c = command) := by
  have hstep := interceptorLoop_append pre ((pfx, f) :: post) command 0 command true hpre
  rw [Nat.zero_add] at hstep
  have hcons : interceptorLoop ((pfx, f) :: post) pre.length command
      (interceptorLoop pre 0 command command true).1 true =
      ((interceptorLoop post (pre.length + 1) command x true).1,
       (interceptorLoop post (pre.length + 1) command x true).2.1,
       Event.interceptorCall pre.length (interceptorLoop pre 0 command command true).1 ::
         (interceptorLoop post (pre.length + 1) command x true).2.2) := by
    simp [interceptorLoop, if_pos hap, hf]
  have hmain : interceptorLoop (pre ++ (pfx, f) :: post) 0 command command true =
      ((interceptorLoop post (pre.length + 1) command x true).1,
       (interceptorLoop post (pre.length + 1) command x true).2.1,
       (interceptorLoop pre 0 command command true).2.2 ++
         Event.interceptorCall pre.length (interceptorLoop pre 0 command command true).1 ::
         (interceptorLoop post (pre.length + 1) command x true).2.2) := by
    rw [hstep, hcons]
  refine ⟨hmain, ?_, ?_⟩
  · intro hno hpost
    have hints : (HookRegistry.mk (pre ++ (pfx, f) :: post) cbs).get_interceptors =
        pre ++ (pfx, f) :: post := rfl
    have hblockfree : (interceptorLoop
        (HookRegistry.mk (pre ++ (pfx, f) :: post) cbs).get_interceptors
        0 command command true).2.1 = true := by
      rw [hints, hmain]
      exact hpost
    have heq := process_command_not_blocked ⟨pre ++ (pfx, f) :: post, cbs⟩ sys command
      capture_output hblockfree
    rw [heq]
    have hfinal : (interceptorLoop
        (HookRegistry.mk (pre ++ (pfx, f) :: post) cbs).get_interceptors
        0 command command true).1 = x := by
      rw [hints, hmain]
      exact interceptorLoop_no_rewrite post command (pre.length + 1) x true hno
    rw [hfinal]
    exact List.mem_append.mpr (Or.inr (List.mem_cons_self _ _))
  · intro i c rc o e hmem
    cases hb : (interceptorLoop
        (HookRegistry.mk (pre ++ (pfx, f) :: post) cbs).get_interceptors
        0 command command true).2.1
    case false =>
      rw [process_command_blocked ⟨pre ++ (pfx, f) :: post, cbs⟩ sys command
        capture_output hb] at hmem
      rcases interceptorLoop_events _ command 0 command true _ hmem with
        ⟨i2, a2, h2⟩ | ⟨i2, m2, h2⟩ <;> exact Event.noConfusion h2
    case true =>
      rw [process_command_not_blocked ⟨pre ++ (pfx, f) :: post, cbs⟩ sys command
        capture_output hb] at hmem
      rcases List.mem_append.mp hmem with h1 | h1
      · rcases interceptorLoop_events _ command 0 command true _ h1 with
          ⟨i2, a2, h2⟩ | ⟨i2, m2, h2⟩ <;> exact Event.noConfusion h2
      · rcases List.mem_cons.mp h1 with h2 | h2
        · exact Event.noConfusion h2
        · exact (callbackLoop_call_mem _ command 0 _ _ _ i c rc o e h2).2.1

/-- C3 witness: a rewriting interceptor makes the executor receive the
rewritten command. -/
theorem C3_witness :
    Event.execCall "echo hi" true ∈
      (process_command ⟨[(none, rewriteEchoHi)], []⟩ sysOk "echo original" true).2 :=
  (C3_rewrite_semantics [] [] none rewriteEchoHi [] sysOk "echo original" "echo hi" true
    rfl rfl rfl).2.1 (fun _ _ hg => absurd hg (List.not_mem_nil _)) rfl

/-- C4 counterexample: the claim "a hook registered with no prefix is invoked
for every command" fails on the code: in `c4Reg` the interceptor at position 1
has no prefix filter, yet for command `ls` it is never invoked, because the
interceptor at position 0 blocked the command first. -/
theorem C4_counterexample :
    c4Reg.get_interceptors.get? 1 = some (none, allowAll) ∧
    appliesTo none "ls" = true ∧
    interceptorInvoked (process_command c4Reg sysOk "ls" false).2 1 = false := by
  refine ⟨rfl, rfl, rfl⟩

/-- C4 amended: a hook is invoked only if its prefix is absent or the ORIGINAL
command starts with it — prefix matching always tests the original input, even
after an earlier interceptor rewrote the command (the guard in the trace
characterisation below tests `command`, not the argument the hook received) —
and a hook with no prefix passes the prefix test for every command.
Conversely, when no interceptor blocks, every interceptor and every callback
whose prefix test passes on the original command IS invoked; when an
interceptor blocks, callbacks are not invoked even if their prefix matches. -/
theorem C4_amended_prefix_scoping (reg : HookRegistry) (sys : String → SpawnOutcome)
    (command : String) (capture_output : Bool) :
    (∀ i arg,
      Event.interceptorCall i arg ∈ (process_command reg sys command capture_output).2 →
      ∃ pfx f, reg.get_interceptors.get? i = some (pfx, f) ∧
        appliesTo pfx command = true) ∧
    (∀ i c rc o e,
      Event.callbackCall i c rc o e ∈ (process_command reg sys command capture_output).2 →
      ∃ pfx g, reg.get_callbacks.get? i = some (pfx, g) ∧
        appliesTo pfx command = true) ∧
    ((process_command reg sys command capture_output).1 ≠ none →
      (∀ i pfx f, reg.get_interceptors.get? i = some (pfx, f) →
        appliesTo pfx command = true →
        ∃ arg, Event.interceptorCall i arg ∈
          (process_command reg sys command capture_output).2) ∧
      (∀ i pfx g, reg.get_callbacks.get? i = some (pfx, g) →
        appliesTo pfx command = true →
        ∃ rc o e, Event.callbackCall i command rc o e ∈
          (process_command reg sys command capture_output).2)) ∧
    ((process_command reg sys command capture_output).1 = none →
      ∀ i c rc o e,
        Event.callbackCall i c rc o e ∉ (process_command reg sys command capture_output).2) ∧
    appliesTo none command = true := by
  cases hb : (interceptorLoop reg.get_interceptors 0 command command true).2.1
  case false =>
    have heq := process_command_blocked reg sys command capture_output hb
    rw [heq]
    refine ⟨?_, ?_, ?_, ?_, rfl⟩
    · intro i arg hmem
      exact (interceptorLoop_call_mem reg.get_interceptors command 0 command true i arg hmem).2
    · intro i c rc o e hmem
      rcases interceptorLoop_events reg.get_interceptors command 0 command true _ hmem with
        ⟨i2, a2, h2⟩ | ⟨i2, m2, h2⟩ <;> exact Event.noConfusion h2
    · intro hne
      exact absurd rfl hne
    · intro _ i c rc o e hmem
      rcases interceptorLoop_events reg.get_interceptors command 0 command true _ hmem with
        ⟨i2, a2, h2⟩ | ⟨i2, m2, h2⟩ <;> exact Event.noConfusion h2
  case true =>
    have heq := process_command_not_blocked reg sys command capture_output hb
    rw [heq]
    refine ⟨?_, ?_, ?_, ?_, rfl⟩
    · intro i arg hmem
      rcases List.mem_append.mp hmem with h1 | h1
      · exact (interceptorLoop_call_mem reg.get_interceptors command 0 command true i arg h1).2
      · rcases List.mem_cons.mp h1 with h2 | h2
        · exact Event.noConfusion h2
        · rcases callbackLoop_events reg.get_callbacks command 0 _ _ _ _ h2 with
            ⟨i2, c2, rc2, o2, e2, h3⟩ | ⟨i2, m2, h3⟩ <;> exact Event.noConfusion h3
    · intro i c rc o e hmem
      rcases List.mem_append.mp hmem with h1 | h1
      · rcases interceptorLoop_events reg.get_interceptors command 0 command true _ h1 with
          ⟨i2, a2, h2⟩ | ⟨i2, m2, h2⟩ <;> exact Event.noConfusion h2
      · rcases List.mem_cons.mp h1 with h2 | h2
        · exact Event.noConfusion h2
        · obtain ⟨_, _, _, _, _, pfx, g, hget, hap⟩ :=
            callbackLoop_call_mem reg.get_callbacks command 0 _ _ _ i c rc o e h2
          exact ⟨pfx, g, hget, hap⟩
    · intro _
      constructor
      · intro i pfx f hget hap
        obtain ⟨arg, hmem⟩ :=
          interceptorLoop_complete reg.get_interceptors command 0 command hb i pfx f hget hap
        rw [Nat.zero_add] at hmem
        exact ⟨arg, List.mem_append.mpr (Or.inl hmem)⟩
      · intro i pfx g hget hap
        have hmem := callbackLoop_complete reg.get_callbacks command 0
          (execute_command sys
            (interceptorLoop reg.get_interceptors 0 command command true).1 capture_output).1
          (execute_command sys
            (interceptorLoop reg.get_interceptors 0 command command true).1 capture_output).2.1
          (execute_command sys
            (interceptorLoop reg.get_interceptors 0 command command true).1 capture_output).2.2
          i pfx g hget hap
        rw [Nat.zero_add] at hmem
        refine ⟨_, _, _, List.mem_append.mpr (Or.inr (List.mem_cons_of_mem _ hmem))⟩
    · intro h0
      exact absurd h0 (by simp)

/-- C4 witness: with a `git`-scoped interceptor and a `git` command, the hook
is invoked. -/
theorem C4_witness :
    ∃ arg, Event.interceptorCall 0 arg ∈
      (process_command ⟨[(some "git", allowAll)], []⟩ sysOk "git status" false).2 :=
  ((C4_amended_prefix_scoping ⟨[(some "git", allowAll)], []⟩ sysOk "git status"
    false).2.2.1 (by decide)).1 0 (some "git") allowAll rfl (by decide)

/-- C5: the counts `load_hooks_from_directory` returns are the net change in
the registry's sizes between the start and the end of the whole directory
pass (not a per-file tally), and the final registry is the per-file fold in
which a failing file still contributes the hooks it registered before
failing. -/
theorem C5_net_counts (r : HookRegistry) (files : List HookFile) (res : LoadResult)
    (h : load_hooks_from_directory r (some files) = Except.ok res) :
    res.interceptorsAdded =
      (res.reg.get_interceptors.length : Int) - r.get_interceptors.length ∧
    res.callbacksAdded =
      (res.reg.get_callbacks.length : Int) - r.get_callbacks.length ∧
    res.reg = files.foldl loadFileFold r ∧
    res.diagnostics = allDiags files := by
  simp only [load_hooks_from_directory, loadStep_foldl files r [], List.nil_append] at h
  obtain rfl := Except.ok.inj h
  exact ⟨rfl, rfl, rfl, rfl⟩

/-- C5 witness: the spec scenario — one file registering 2 interceptors and 1
callback, one file failing before registering anything — reports counts
`(2, 1)`, equal to the net size change. -/
theorem C5_witness :
    c5Res.interceptorsAdded =
      (c5Res.reg.get_interceptors.length : Int) -
        HookRegistry.empty.get_interceptors.length ∧
    c5Res.interceptorsAdded = 2 ∧ c5Res.callbacksAdded = 1 := by
  refine ⟨(C5_net_counts HookRegistry.empty [hookFileA, hookFileBad] c5Res rfl).1, ?_, ?_⟩
  · decide
  · decide

/-- C6: the directory-not-found error is raised iff the path does not exist,
and it is the only propagated error: loading a directory always succeeds,
a failing hook file has its error reported to the diagnostic stream, and
loading continues with the files after it. -/
theorem C6_error_isolation (r : HookRegistry) (dir : Option (List HookFile))
    (fs1 fs2 : List HookFile) (bad : HookFile) (m : String)
    (hbad1 : bad.specOk = true) (hbad2 : bad.failMsg = some m) :
    ((∃ emsg, load_hooks_from_directory r dir = Except.error emsg) ↔ dir = none) ∧
    load_hooks_from_directory r none = Except.error "Hook directory not found" ∧
    ∃ res, load_hooks_from_directory r (some (fs1 ++ bad :: fs2)) = Except.ok res ∧
      m ∈ res.diagnostics ∧
      res.reg = fs2.foldl loadFileFold (loadFileFold (fs1.foldl loadFileFold r) bad) := by
  refine ⟨?_, rfl, ?_⟩
  · constructor
    · rintro ⟨emsg, herr⟩
      cases dir with
      | none => rfl
      | some files =>
        rw [load_hooks_from_directory] at herr
        exact Except.noConfusion herr
    · rintro rfl
      exact ⟨"Hook directory not found", rfl⟩
  · have hbadDiags : fileDiags bad = [m] := by
      simp [fileDiags, hbad1, hbad2]
    refine ⟨⟨((fs1 ++ bad :: fs2).foldl loadStep (r, [])).1,
        ((((fs1 ++ bad :: fs2).foldl loadStep (r, [])).1.get_interceptors.length : Int) -
          (r.get_interceptors.length : Int)),
        ((((fs1 ++ bad :: fs2).foldl loadStep (r, [])).1.get_callbacks.length : Int) -
          (r.get_callbacks.length : Int)),
        ((fs1 ++ bad :: fs2).foldl loadStep (r, [])).2⟩, rfl, ?_, ?_⟩
    · show m ∈ ((fs1 ++ bad :: fs2).foldl loadStep (r, [])).2
      rw [loadStep_foldl, List.nil_append, allDiags_append]
      refine List.mem_append.mpr (Or.inr ?_)
      show m ∈ allDiags (bad :: fs2)
      rw [allDiags, hbadDiags]
      exact List.mem_append.mpr (Or.inl (List.mem_singleton.mpr rfl))
    · show ((fs1 ++ bad :: fs2).foldl loadStep (r, [])).1 = _
      rw [loadStep_foldl, List.foldl_append, List.foldl_cons]

/-- C6 witness: a missing directory is the (only) error. -/
theorem C6_witness :
    load_hooks_from_directory HookRegistry.empty none =
      Except.error "Hook directory not found" :=
  (C6_error_isolation HookRegistry.empty none [] [] hookFileBad "boom in file"
    rfl rfl).2.1
